import Mathlib

/-!
Verification development for the deso-ag post-processing pipeline:
content normalization, cross-source deduplication, ranking, query
matching and engagement-weighted term extraction.

Strings are modelled as `List Char` internally (`String` at the API
boundary).  JavaScript `\s` is modelled by `isJsWS`, `\w` by
`isWordChar`, and `toLowerCase` by the ASCII `Char.toLower`.
Numeric code is modelled exactly: similarity ratios live in `ℚ`, and
the `1 + log2 (1 + e)` term weights are represented exactly by the
pair (number of summands, product of the `1 + e` factors), see
`Weight` below.
-/

namespace DesoAg

/-- The characters matched by the JavaScript regex class `\s`. -/
def isJsWS (c : Char) : Bool :=
  c.toNat = 32 || c.toNat = 9 || c.toNat = 10 || c.toNat = 13 ||
  c.toNat = 11 || c.toNat = 12 || c.toNat = 160 || c.toNat = 0x1680 ||
  (0x2000 ≤ c.toNat && c.toNat ≤ 0x200a) || c.toNat = 0x2028 ||
  c.toNat = 0x2029 || c.toNat = 0x202f || c.toNat = 0x205f ||
  c.toNat = 0x3000 || c.toNat = 0xfeff

/-- The characters matched by the JavaScript regex class `\w`. -/
def isWordChar (c : Char) : Bool :=
  (65 ≤ c.toNat && c.toNat ≤ 90) || (97 ≤ c.toNat && c.toNat ≤ 122) ||
  (48 ≤ c.toNat && c.toNat ≤ 57) || c.toNat = 95

/-- The apostrophe character (codepoint 39). -/
def apos : Char := Char.ofNat 39

/-- `toLowerCase`, charwise (ASCII model). -/
def lowerL (l : List Char) : List Char := l.map Char.toLower

/-! ### URL removal: the regex `/https?:\/\/\S+/g` replaced by the empty string -/

/-- The scheme `https://` as a character list. -/
def httpsL : List Char := ['h', 't', 't', 'p', 's', ':', '/', '/']

/-- The scheme `http://` as a character list. -/
def httpL : List Char := ['h', 't', 't', 'p', ':', '/', '/']

/-- Length of the scheme prefix of `/https?:\/\//` matching at the head of
`l`, if any (the `s?` is greedy, exactly as in the regex). -/
def schemeLen (l : List Char) : Option Nat :=
  if l.take 8 = httpsL then some 8
  else if l.take 7 = httpL then some 7
  else none

/-- If `/https?:\/\/\S+/` matches at the head of `l`, returns the remainder
of `l` after the (greedy) match; `none` if there is no match here. -/
def urlTail (l : List Char) : Option (List Char) :=
  match schemeLen l with
  | some k =>
    match l.drop k with
    | [] => none
    | c :: rest =>
      if isJsWS c then none
      else some ((c :: rest).dropWhile (fun x => !isJsWS x))
  | none => none

/-- Fuelled scan for `replace(/https?:\/\/\S+/g, "")`: at each position,
either a match is removed and scanning resumes after it, or the character
is kept.  The fuel is only a structural-recursion device; `removeURLs`
always supplies enough. -/
def removeURLsAux : Nat → List Char → List Char
  | 0, l => l
  | _ + 1, [] => []
  | fuel + 1, c :: t =>
    match urlTail (c :: t) with
    | some r => removeURLsAux fuel r
    | none => c :: removeURLsAux fuel t

/-- `replace(/https?:\/\/\S+/g, "")`. -/
def removeURLs (l : List Char) : List Char :=
  removeURLsAux l.length l

/-- State-machine for `replace(/\s+/g, " ")`: the flag records whether we
are inside a whitespace run whose single replacement space was already
emitted. -/
def collapseGo : List Char → Bool → List Char
  | [], _ => []
  | c :: t, inRun =>
    if isJsWS c then
      if inRun then collapseGo t true else ' ' :: collapseGo t true
    else c :: collapseGo t false

/-- `replace(/\s+/g, " ")`. -/
def collapseWS (l : List Char) : List Char := collapseGo l false

/-- `trim()`: drop leading and trailing whitespace. -/
def trimWS (l : List Char) : List Char :=
  ((l.dropWhile isJsWS).reverse.dropWhile isJsWS).reverse

/-- `normalizeContent` on character lists: lower-case, strip URL tokens,
collapse whitespace, trim. -/
def normalizeL (l : List Char) : List Char :=
  trimWS (collapseWS (removeURLs (lowerL l)))

/-- `normalizeContent(content)`. -/
def normalizeContent (content : String) : String :=
  String.mk (normalizeL content.data)

/-! ### Similarity -/

/-- Number of positions `i` below the length of the first list where the
two lists hold the same character. -/
def matchCount : List Char → List Char → Nat
  | a :: as, b :: bs => (if a = b then 1 else 0) + matchCount as bs
  | _, _ => 0

/-- `similarityRatio(a, b)`: positional character-match ratio between the
shorter and the longer of the two strings, divided by the longer length
(1 if both are empty).  Exact rational model of the JS division. -/
def simRatio (a b : List Char) : ℚ :=
  let shorter := if a.length ≤ b.length then a else b
  let longer := if a.length ≤ b.length then b else a
  if longer.length = 0 then 1
  else (matchCount shorter longer : ℚ) / (longer.length : ℚ)

/-! ### Data model -/

/-- The four decentralized networks posts can originate from. -/
inductive Source where
  | farcaster
  | lens
  | nostr
  | bluesky
deriving DecidableEq, Repr

/-- Post author. -/
structure Author where
  username : String
  displayName : Option String := none
  profileUrl : Option String := none
deriving DecidableEq, Repr

/-- Optional engagement counters of a post. -/
structure Engagement where
  likes : Option Nat := none
  reposts : Option Nat := none
  replies : Option Nat := none
deriving DecidableEq, Repr

/-- A single unit of content from one network. -/
structure Post where
  id : String
  source : Source
  author : Author
  content : String
  timestamp : Int
  url : Option String := none
  engagement : Option Engagement := none
  channel : Option String := none
  tags : Option (List String) := none
deriving DecidableEq, Repr

/-- `computeEngagementScore(post)`: likes + reposts*2 + replies, with every
missing field read as 0. -/
def computeEngagementScore (post : Post) : Nat :=
  ((post.engagement.bind Engagement.likes).getD 0) +
  ((post.engagement.bind Engagement.reposts).getD 0) * 2 +
  ((post.engagement.bind Engagement.replies).getD 0)

/-! ### Query matcher -/

/-- State-machine splitter: the maximal non-whitespace runs of `l`
(`cur` is the current run, reversed).  After discarding empties this is
`split(/\s+/)` followed by `filter(t => t.length > 0)`. -/
def splitWsAux : List Char → List Char → List (List Char)
  | [], cur => if cur = [] then [] else [cur.reverse]
  | c :: t, cur =>
    if isJsWS c then
      if cur = [] then splitWsAux t [] else cur.reverse :: splitWsAux t []
    else splitWsAux t (c :: cur)

/-- The non-empty whitespace-separated runs of `l`. -/
def splitWsRuns (l : List Char) : List (List Char) := splitWsAux l []

/-- Does `hay` start with `needle`? -/
def isPrefixL : List Char → List Char → Bool
  | [], _ => true
  | _ :: _, [] => false
  | a :: n, b :: h => a = b && isPrefixL n h

/-- `hay.includes(needle)`: contiguous substring test. -/
def isInfixL (needle hay : List Char) : Bool :=
  match hay with
  | [] => isPrefixL needle []
  | _ :: t => isPrefixL needle hay || isInfixL needle t

/-- `matchesQuery(content, tags, query)`: AND over the lower-cased
whitespace-separated terms of the query, each matched as a substring of
the lower-cased content or of some lower-cased tag. -/
def matchesQuery (content : String) (tags : List String) (query : String) : Bool :=
  let terms := splitWsRuns (lowerL query.data)
  if terms.length = 0 then true
  else
    let lowerContent := lowerL content.data
    let lowerTags := tags.map (fun t => lowerL t.data)
    terms.all (fun term =>
      isInfixL term lowerContent || lowerTags.any (fun tag => isInfixL term tag))

/-! ### Deduplication -/

/-- Normalized content of a post truncated to its first 200 characters,
as cached by `deduplicatePosts`. -/
def norm200 (p : Post) : List Char := (normalizeL p.content.data).take 200

/-- One scan of the accumulated result list for a duplicate of `post`:
`none` when no entry from a different source has similarity above 0.8;
otherwise the updated result list (entry replaced when the candidate has
strictly more engagement, kept otherwise). -/
def dedupScan (post : Post) : List Post → Option (List Post)
  | [] => none
  | existing :: rest =>
    if existing.source = post.source then
      (dedupScan post rest).map (fun r => existing :: r)
    else if simRatio (norm200 post) (norm200 existing) > (4 : ℚ) / 5 then
      some (if computeEngagementScore post > computeEngagementScore existing then
              post :: rest
            else existing :: rest)
    else (dedupScan post rest).map (fun r => existing :: r)

/-- Left fold of `dedupScan` over the input posts, accumulating the
deduplicated result list in order. -/
def dedupFold : List Post → List Post → List Post
  | [], acc => acc
  | p :: rest, acc =>
    match dedupScan p acc with
    | some acc2 => dedupFold rest acc2
    | none => dedupFold rest (acc ++ [p])

/-- `deduplicatePosts(posts)`. -/
def deduplicatePosts (posts : List Post) : List Post := dedupFold posts []

/-! ### Ranking -/

/-- Sort orders of the ranking engine. -/
inductive SortOrder where
  | engagement
  | recent
  | relevance
deriving DecidableEq, Repr

/-- The `recent` comparator: `b.timestamp - a.timestamp`. -/
def recentCmp (a b : Post) : Int := b.timestamp - a.timestamp

/-- The `engagement` comparator: engagement difference, ties by recency. -/
def engagementCmp (a b : Post) : Int :=
  let diff : Int := (computeEngagementScore b : Int) - (computeEngagementScore a : Int)
  if diff ≠ 0 then diff else b.timestamp - a.timestamp

/-- The `relevance` comparator for a (truthy) query: match flag first,
then the `engagement` comparator chain. -/
def relevanceCmp (query : String) (a b : Post) : Int :=
  let aM := matchesQuery a.content (a.tags.getD []) query
  let bM := matchesQuery b.content (b.tags.getD []) query
  if aM ≠ bM then (if aM then -1 else 1)
  else engagementCmp a b

/-- `a` may be placed before `b` by a JS stable sort with comparator
`recentCmp`. -/
def recentLe (a b : Post) : Prop := recentCmp a b ≤ 0

/-- `a` may be placed before `b` by a JS stable sort with comparator
`engagementCmp`. -/
def engagementLe (a b : Post) : Prop := engagementCmp a b ≤ 0

/-- `a` may be placed before `b` by a JS stable sort with comparator
`relevanceCmp query`. -/
def relevanceLe (query : String) (a b : Post) : Prop := relevanceCmp query a b ≤ 0

instance : DecidableRel recentLe := fun _ _ => inferInstanceAs (Decidable (_ ≤ _))

instance : DecidableRel engagementLe := fun _ _ => inferInstanceAs (Decidable (_ ≤ _))

instance (query : String) : DecidableRel (relevanceLe query) :=
  fun _ _ => inferInstanceAs (Decidable (_ ≤ _))

/-- `sortPosts(posts, sort, query?)`, modelled as returning the sorted
list; `Array.prototype.sort` is modelled by the stable `insertionSort`.
A supplied but empty query string is falsy in JS, so `relevance` then
falls back to the engagement comparator, as in the source. -/
def sortPosts (posts : List Post) (sort : SortOrder) (query : Option String) : List Post :=
  match sort with
  | SortOrder.recent => List.insertionSort recentLe posts
  | SortOrder.engagement => List.insertionSort engagementLe posts
  | SortOrder.relevance =>
    match query with
    | some q =>
      if q = "" then List.insertionSort engagementLe posts
      else List.insertionSort (relevanceLe q) posts
    | none => List.insertionSort engagementLe posts

/-! ### Merging and the result envelope -/

/-- One fetch result per queried network. -/
structure FetchResult where
  posts : List Post
  source : Source
  error : Option String := none
deriving DecidableEq, Repr

/-- Timeframe labels. -/
inductive Timeframe where
  | h24
  | h48
  | week
deriving DecidableEq, Repr

/-- Search options relevant to the pipeline. -/
structure SearchOptions where
  query : Option String := none
  sources : List Source := []
  timeframe : Timeframe
  channel : Option String := none
  limit : Option Nat := none
  sort : Option SortOrder := none
deriving DecidableEq, Repr

/-- `mergeResults(results, sort, query?)`: concatenate all posts,
deduplicate cross-source, sort. -/
def mergeResults (results : List FetchResult) (sort : SortOrder)
    (query : Option String) : List Post :=
  let allPosts := results.foldl (fun acc r => acc ++ r.posts) []
  sortPosts (deduplicatePosts allPosts) sort query

/-- Per-source entry of the meta envelope. -/
structure SourceMeta where
  name : Source
  count : Nat
  error : Option String := none
deriving DecidableEq, Repr

/-- The meta envelope of an aggregate result. -/
structure Meta where
  query : Option String
  sources : List SourceMeta
  timeframe : Timeframe
  fetchedAt : String
  totalPosts : Nat
deriving DecidableEq, Repr

/-- `buildMeta(results, options)`; the impure `new Date().toISOString()`
is modelled by the extra `now` argument. -/
def buildMeta (results : List FetchResult) (options : SearchOptions)
    (now : String) : Meta :=
  { query := options.query
    sources := results.map (fun r => ⟨r.source, r.posts.length, r.error⟩)
    timeframe := options.timeframe
    fetchedAt := now
    totalPosts := results.foldl (fun sum r => sum + r.posts.length) 0 }

/-! ### Term extraction -/

/-- The fixed stop-word set (`STOP_WORDS`). -/
def STOP_WORDS : List String :=
  ["the", "be", "to", "of", "and", "a", "in", "that", "have", "i",
   "it", "for", "not", "on", "with", "he", "as", "you", "do", "at",
   "this", "but", "his", "by", "from", "they", "we", "say", "her",
   "she", "or", "an", "will", "my", "one", "all", "would", "there",
   "their", "what", "so", "up", "out", "if", "about", "who", "get",
   "which", "go", "me", "when", "make", "can", "like", "time", "no",
   "just", "him", "know", "take", "people", "into", "year", "your",
   "good", "some", "could", "them", "see", "other", "than", "then",
   "now", "look", "only", "come", "its", "over", "think", "also",
   "back", "after", "use", "two", "how", "our", "work", "first",
   "well", "way", "even", "new", "want", "because", "any", "these",
   "give", "day", "most", "us", "are", "has", "was", "been", "is",
   "am", "were", "did", "had", "does", "being", "got", "really",
   "very", "much", "more", "too", "still", "own", "here", "why",
   "don", "didn", "isn", "aren", "won", "wouldn", "shouldn", "couldn",
   "let", "thing", "things", "lot", "going", "need", "right", "big",
   "long", "man", "old", "great", "little", "sure", "keep", "should",
   "those", "made", "said", "lol", "yes", "yeah", "nah", "okay", "actually",
   "every", "already", "many", "may", "might", "must", "though", "through",
   "while", "where", "down", "off", "been", "before", "between", "both",
   "each", "few", "same", "such", "since", "never", "always", "last",
   "again", "another", "around", "part", "put", "set", "per", "try",
   "doing", "done", "getting", "making", "something", "anything", "everything",
   "nothing", "someone", "anyone", "everyone", "nobody", "gonna", "wanna",
   "gotta", "ima", "imo", "tbh", "idk"]

/-- Is this word (as a character list) a stop word? -/
def isStopWord (w : List Char) : Bool := STOP_WORDS.contains (String.mk w)

/-- `replace(/'s\b/g, "")`: drop apostrophe-s at a word boundary; when the
boundary test fails the scan resumes one character further, as the regex
engine does. -/
def stripPossessives : List Char → List Char
  | [] => []
  | [c] => [c]
  | c :: d :: rest =>
    if c = apos ∧ d = 's' then
      match rest with
      | [] => []
      | e :: _ =>
        if isWordChar e then c :: stripPossessives (d :: rest)
        else stripPossessives rest
    else c :: stripPossessives (d :: rest)

/-- `replace(/[^\w\s]/g, " ")`. -/
def replaceNonWord (l : List Char) : List Char :=
  l.map (fun c => if isWordChar c || isJsWS c then c else ' ')

/-- `stripPunctuation(text)`: possessives, punctuation to spaces, collapse,
trim. -/
def stripPunct (l : List Char) : List Char :=
  trimWS (collapseWS (replaceNonWord (stripPossessives l)))

/-- `split(" ")`: split on every single space character. -/
def splitOnSpace : List Char → List (List Char)
  | [] => [[]]
  | c :: t =>
    match splitOnSpace t with
    | [] => [[c]]
    | w :: ws => if c = ' ' then [] :: w :: ws else (c :: w) :: ws

/-- The surviving tokens of `tokenize`: words of length at least 3. -/
def tokenizeWords (l : List Char) : List (List Char) :=
  (splitOnSpace (stripPunct l)).filter (fun w => 3 ≤ w.length)

/-- The unigrams of `tokenize`: surviving words that are not stop words. -/
def tokenizeUnigrams (l : List Char) : List (List Char) :=
  (tokenizeWords l).filter (fun w => !isStopWord w)

/-- Adjacent-pair bigrams over a word list, skipping pairs whose two
members are both stop words. -/
def bigramsOf : List (List Char) → List (List Char)
  | w1 :: w2 :: rest =>
    if isStopWord w1 && isStopWord w2 then bigramsOf (w2 :: rest)
    else (w1 ++ ' ' :: w2) :: bigramsOf (w2 :: rest)
  | _ => []

/-- The bigrams of `tokenize`. -/
def tokenizeBigrams (l : List Char) : List (List Char) :=
  bigramsOf (tokenizeWords l)

/-- Exact representation of an accumulated term weight: the sum of
`count` many per-post weights `1 + log2 (1 + e_i)` is
`count + log2 prod` where `prod` is the product of the `1 + e_i`.
Its real value is recovered as `count + log2 prod`. -/
structure Weight where
  count : Nat
  prod : Nat
deriving DecidableEq, Repr

/-- The per-post weight `1 + Math.log2(1 + engagementScore)`. -/
def postWeight (e : Nat) : Weight := ⟨1, 1 + e⟩

/-- Sum of two weights: `(k₁ + log2 P₁) + (k₂ + log2 P₂)`. -/
def addWeight (a b : Weight) : Weight := ⟨a.count + b.count, a.prod * b.prod⟩

/-- Comparison key: `2 ^ count * prod`.  For weights with `prod ≥ 1`,
`k₁ + log2 P₁ < k₂ + log2 P₂` holds exactly when
`2 ^ k₁ * P₁ < 2 ^ k₂ * P₂`, so key comparisons are exact comparisons
of the real weight values. -/
def wKey (w : Weight) : Nat := 2 ^ w.count * w.prod

/-- `Math.round(w * 10) / 10` for the real value `w = count + log2 prod`:
writing `Q = prod ^ 10`, `floor(w * 10 + 1/2) = 10 * count + j` for the
largest `j` with `4 ^ j ≤ 2 * Q ^ 2`, i.e. `j = Nat.log 4 (2 * Q ^ 2)`. -/
def roundScore (w : Weight) : ℚ :=
  ((10 * w.count + Nat.log 4 (2 * (w.prod ^ 10) ^ 2) : Nat) : ℚ) / 10

/-- Accumulation entry of one token (`TokenEntry`). -/
structure Entry where
  weight : Weight
  postIds : List String
deriving DecidableEq, Repr

/-- Insert a post id into the id set (JS `Set`: insertion-ordered,
duplicates ignored). -/
def insertId (ids : List String) (pid : String) : List String :=
  if pid ∈ ids then ids else ids ++ [pid]

/-- Add one token occurrence to the insertion-ordered accumulation map. -/
def addToken (m : List (String × Entry)) (tok : String) (w : Weight)
    (pid : String) : List (String × Entry) :=
  match m with
  | [] => [(tok, ⟨w, [pid]⟩)]
  | (t, e) :: rest =>
    if t = tok then (t, ⟨addWeight e.weight w, insertId e.postIds pid⟩) :: rest
    else (t, e) :: addToken rest tok w pid

/-- All token occurrences contributed by one post, in accumulation order:
unigrams, then lower-cased tags of length at least 3, then bigrams. -/
def postTokens (post : Post) : List (List Char) :=
  let normalized := normalizeL post.content.data
  tokenizeUnigrams normalized ++
    ((post.tags.getD []).map (fun t => lowerL t.data)).filter (fun t => 3 ≤ t.length) ++
    tokenizeBigrams normalized

/-- Accumulate the token map over a list of posts, skipping posts whose
normalized content is shorter than 10 characters. -/
def accumTokens (posts : List Post) : List (String × Entry) :=
  posts.foldl
    (fun m post =>
      if (normalizeL post.content.data).length < 10 then m
      else
        let w := postWeight (computeEngagementScore post)
        (postTokens post).foldl (fun m2 tok => addToken m2 (String.mk tok) w post.id) m)
    []

/-- 1 when the token contains a space (a bigram), else 0. -/
def bigramFlag (t : String) : Nat := if ' ' ∈ t.data then 1 else 0

/-- `a` may be placed before `b` by the stable term sort: strictly larger
weight first, and on an exact weight tie a bigram before a unigram. -/
def termLe (a b : String × Entry) : Prop :=
  wKey b.2.weight < wKey a.2.weight ∨
    (wKey a.2.weight = wKey b.2.weight ∧ bigramFlag b.1 ≤ bigramFlag a.1)

instance : DecidableRel termLe :=
  fun _ _ => inferInstanceAs (Decidable (_ ∨ _))

/-- A term of the result. -/
structure Term where
  token : String
  score : ℚ
  postCount : Nat
deriving DecidableEq, Repr

/-- The constituent parts of a token (`token.split(" ")`). -/
def tokenParts (t : String) : List String :=
  (splitOnSpace t.data).map String.mk

/-- The selection walk over the sorted candidate list: skip suppressed
tokens, emit a term, suppress the parts of an emitted bigram, stop once
`topN` terms were selected. -/
def selectLoop (topN : Nat) : List (String × Entry) → List String → List Term → List Term
  | [], _, acc => acc
  | (tok, e) :: rest, sup, acc =>
    if tok ∈ sup then selectLoop topN rest sup acc
    else
      let acc2 := acc ++ [⟨tok, roundScore e.weight, e.postIds.length⟩]
      let sup2 := if ' ' ∈ tok.data then sup ++ tokenParts tok else sup
      if topN ≤ acc2.length then acc2 else selectLoop topN rest sup2 acc2

/-- `extractTerms(posts, topN)`. -/
def extractTerms (posts : List Post) (topN : Nat := 3) : List Term :=
  let filtered := (accumTokens posts).filter (fun te => 2 ≤ te.2.postIds.length)
  selectLoop topN (List.insertionSort termLe filtered) [] []

/-- Per-source term summary. -/
structure SourceTerms where
  source : Source
  postCount : Nat
  terms : List Term
deriving DecidableEq, Repr

/-- Grouped term results. -/
structure TermsResult where
  bySource : List SourceTerms
  overall : List Term
  timeframe : String
  analyzedAt : String
deriving DecidableEq, Repr

/-- Append a post to its source group, creating the group at the end on
first encounter (JS `Map` insertion order). -/
def addToGroup : List (Source × List Post) → Post → List (Source × List Post)
  | [], p => [(p.source, [p])]
  | (s, ps) :: rest, p =>
    if s = p.source then (s, ps ++ [p]) :: rest
    else (s, ps) :: addToGroup rest p

/-- Group posts by source in first-encounter order. -/
def groupBySource (posts : List Post) : List (Source × List Post) :=
  posts.foldl addToGroup []

/-- The fixed canonical source sequence used to order the groups. -/
def sourceOrder : List Source :=
  [Source.farcaster, Source.lens, Source.nostr, Source.bluesky]

/-- `indexOf` with the JS convention: `-1` when absent. -/
def jsIndexOfAux : List Source → Source → Nat → Int
  | [], _, _ => -1
  | b :: t, a, i => if b = a then (i : Int) else jsIndexOfAux t a (i + 1)

/-- `sourceOrder.indexOf(s)`. -/
def srcIndex (s : Source) : Int := jsIndexOfAux sourceOrder s 0

/-- `a` may be placed before `b` by the stable group sort with comparator
`srcIndex a - srcIndex b`. -/
def srcLe (a b : SourceTerms) : Prop :=
  srcIndex a.source - srcIndex b.source ≤ 0

instance : DecidableRel srcLe := fun _ _ => inferInstanceAs (Decidable (_ ≤ _))

/-- `extractTermsBySource(posts, topN, timeframe)`; the impure
`new Date().toISOString()` is modelled by the extra `now` argument. -/
def extractTermsBySource (posts : List Post) (topN : Nat := 3)
    (timeframe : String := "24h") (now : String := "") : TermsResult :=
  let sourceTerms := (groupBySource posts).map
    (fun g => SourceTerms.mk g.1 g.2.length (extractTerms g.2 topN))
  { bySource := List.insertionSort srcLe sourceTerms
    overall := extractTerms posts topN
    timeframe := timeframe
    analyzedAt := now }

/-! ### Predicates used to analyse the normalizer -/

/-- The optional character is whitespace or absent. -/
def wsOrEnd : Option Char → Prop
  | none => True
  | some c => isJsWS c = true

/-- No suffix of `l` starts a URL match. -/
def cleanURL (l : List Char) : Prop := ∀ t, t <:+ l → urlTail t = none

/-- `m'` agrees with `m` on the first 8 positions, or on all positions up
to some position below 8 at which `m'` holds whitespace or has ended:
the seam shape every pass of the normalizer leaves behind. -/
def seamRel (m m' : List Char) : Prop :=
  (∀ i, i < 8 → m'[i]? = m[i]?) ∨
    ∃ n, n < 8 ∧ (∀ i, i < n → m'[i]? = m[i]?) ∧ wsOrEnd m'[n]?

/-- Every whitespace character of `l` is a plain space. -/
def spacesOnly (l : List Char) : Prop := ∀ c ∈ l, isJsWS c = true → c = ' '

/-- No two adjacent whitespace characters in `l`. -/
def noWsPair (l : List Char) : Prop :=
  l.Chain' (fun a b => ¬(isJsWS a = true ∧ isJsWS b = true))

/-- The head of `l`, if any, is not whitespace. -/
def headNotWs (l : List Char) : Prop := ∀ c, l.head? = some c → isJsWS c = false

/-- The last element of `l`, if any, is not whitespace. -/
def lastNotWs (l : List Char) : Prop := ∀ c, l.getLast? = some c → isJsWS c = false

/-! ### Spec-side definitions (written from the specification wording,
to be compared with the source-derived functions above) -/

/-- Spec-side reading of the likes counter: 0 when the engagement object
or the field is absent. -/
def specLikes (p : Post) : Nat :=
  match p.engagement with
  | none => 0
  | some e => e.likes.getD 0

/-- Spec-side reading of the reposts counter. -/
def specReposts (p : Post) : Nat :=
  match p.engagement with
  | none => 0
  | some e => e.reposts.getD 0

/-- Spec-side reading of the replies counter. -/
def specReplies (p : Post) : Nat :=
  match p.engagement with
  | none => 0
  | some e => e.replies.getD 0

/-- `needle` occurs contiguously inside `hay`. -/
def SubstrOf (needle hay : List Char) : Prop :=
  ∃ u v, hay = u ++ needle ++ v

/-- Spec-side query matcher: every non-empty lower-cased
whitespace-separated term of the query is a substring of the lower-cased
content or of some lower-cased tag. -/
def specMatches (content : String) (tags : List String) (query : String) : Prop :=
  ∀ term ∈ splitWsRuns (lowerL query.data),
    SubstrOf term (lowerL content.data) ∨ ∃ tag ∈ tags, SubstrOf term (lowerL tag.data)

/-- Does a post match the query, as used by the relevance comparator? -/
def qMatch (query : String) (p : Post) : Bool :=
  matchesQuery p.content (p.tags.getD []) query

/-- The claim wording of C3 at one input: a bigram in the result excludes
its constituents from every other position, before or after. -/
def constituentFreeBoth (terms : List Term) : Prop :=
  terms.Pairwise (fun t u =>
    (' ' ∈ t.token.data → u.token ∉ tokenParts t.token) ∧
    (' ' ∈ u.token.data → t.token ∉ tokenParts u.token))

/-! ### Concrete inputs used by witnesses and counterexamples -/

/-- Concrete author. -/
def wAuthor : Author := ⟨("user"), none, none⟩

/-- Build a concrete post. -/
def mkPost (pid : String) (src : Source) (content : String)
    (likes reposts replies : Nat) : Post :=
  { id := pid, source := src, author := wAuthor, content := content,
    timestamp := 0, engagement := some ⟨some likes, some reposts, some replies⟩ }

/-- 300-character content disagreeing with `cxContentB` on 40 of the
first 200 positions and agreeing on the last 100. -/
def cxContentA : String :=
  String.mk (List.replicate 160 'a' ++ List.replicate 40 'b' ++ List.replicate 100 'c')

/-- 300-character counterpart of `cxContentA`. -/
def cxContentB : String :=
  String.mk (List.replicate 160 'a' ++ List.replicate 40 'd' ++ List.replicate 100 'c')

/-- First post of the C1 counterexample. -/
def cxPostA : Post := mkPost ("a") Source.farcaster cxContentA 0 0 0

/-- Second post of the C1 counterexample, from a different source. -/
def cxPostB : Post := mkPost ("b") Source.lens cxContentB 5 0 0

/-- Posts whose term extraction selects the unigram `foo` strictly before
the bigram `foo bar`. -/
def cxTermPosts : List Post :=
  [mkPost ("1") Source.farcaster ("foo bar alpha") 0 0 0,
   mkPost ("2") Source.farcaster ("foo bar alpha") 0 0 0,
   mkPost ("3") Source.farcaster ("foo zebra spark") 0 0 0]

/-- Concrete cross-source near-duplicate pair, higher engagement second. -/
def wPostC : Post := mkPost ("c") Source.farcaster ("hello world from chain") 0 0 0

/-- Counterpart of `wPostC` on another source with more engagement. -/
def wPostD : Post := mkPost ("d") Source.lens ("hello world from chain") 5 0 0

/-- First of two same-source posts with identical content. -/
def cxSamePostA : Post := mkPost ("s1") Source.farcaster ("hello world from chain") 0 0 0

/-- Second of the two same-source posts with identical content. -/
def cxSamePostB : Post := mkPost ("s2") Source.farcaster ("hello world from chain") 0 0 0

/-- A cross-source near-duplicate with higher engagement than both. -/
def cxCrossPost : Post := mkPost ("x") Source.lens ("hello world from chain") 5 0 0

/-- A concrete post without an engagement object. -/
def wPostNoEng : Post :=
  { id := ("w"), source := Source.nostr, author := wAuthor, content := ("hi"),
    timestamp := 0 }

/-- Concrete search options. -/
def wOpts : SearchOptions := { timeframe := Timeframe.h24 }

/-- Fetch results carrying a per-source error string. -/
def wRes1 : List FetchResult := [⟨[wPostC], Source.farcaster, some ("boom")⟩]

/-- The same fetch results with the error removed. -/
def wRes2 : List FetchResult := [⟨[wPostC], Source.farcaster, none⟩]

/-! ### Bridge lemmas -/

theorem isPrefixL_iff (n : List Char) : ∀ h : List Char,
    isPrefixL n h = true ↔ ∃ v, h = n ++ v := by
  induction n with
  | nil => intro h; simp [isPrefixL]
  | cons a n ih =>
    intro h
    cases h with
    | nil => simp [isPrefixL]
    | cons b t =>
      simp only [isPrefixL, Bool.and_eq_true, decide_eq_true_eq, ih, List.cons_append,
        List.cons.injEq]
      constructor
      · rintro ⟨rfl, v, rfl⟩; exact ⟨v, rfl, rfl⟩
      · rintro ⟨v, rfl, rfl⟩; exact ⟨rfl, v, rfl⟩

theorem isInfixL_iff (n : List Char) : ∀ h : List Char,
    isInfixL n h = true ↔ SubstrOf n h := by
  intro h
  induction h with
  | nil =>
    simp only [isInfixL, isPrefixL_iff, SubstrOf]
    constructor
    · rintro ⟨v, hv⟩
      exact ⟨[], v, hv⟩
    · rintro ⟨u, v, huv⟩
      rcases u with _ | ⟨c, u⟩
      · exact ⟨v, huv⟩
      · simp at huv
  | cons c t ih =>
    simp only [isInfixL, Bool.or_eq_true, isPrefixL_iff, ih, SubstrOf]
    constructor
    · rintro (⟨v, hv⟩ | ⟨u, v, huv⟩)
      · exact ⟨[], v, hv⟩
      · exact ⟨c :: u, v, by simp [huv]⟩
    · rintro ⟨u, v, huv⟩
      rcases u with _ | ⟨d, u⟩
      · exact Or.inl ⟨v, huv⟩
      · simp only [List.cons_append, List.cons.injEq] at huv
        exact Or.inr ⟨u, v, huv.2⟩

/-- The matcher with an empty term list returns true. -/
theorem matchesQuery_empty_terms (content : String) (tags : List String)
    (query : String) (h : splitWsRuns (lowerL query.data) = []) :
    matchesQuery content tags query = true := by
  simp [matchesQuery, h]

/-! ### C8 -/

/-- C8: `computeEngagementScore` equals likes + 2·reposts + replies with
absent engagement objects and absent fields read as 0; in particular a
post without engagement scores 0. -/
theorem claim_C8 (p : Post) :
    computeEngagementScore p = specLikes p + 2 * specReposts p + specReplies p ∧
    (p.engagement = none → computeEngagementScore p = 0) := by
  constructor
  · cases h : p.engagement with
    | none => simp [computeEngagementScore, specLikes, specReposts, specReplies, h]
    | some e =>
      simp only [computeEngagementScore, specLikes, specReposts, specReplies, h,
        Option.bind]
      ring
  · intro h
    simp [computeEngagementScore, h]

/-- Witness for C8 at a concrete post without an engagement object. -/
theorem claim_C8_witness : computeEngagementScore wPostNoEng = 0 :=
  (claim_C8 wPostNoEng).2 rfl

/-! ### C6 -/

/-- C6 (amended): two posts from the same source are never merged with
each other: `deduplicate` of the pair list `[p1, p2]` retains both, even
with identical content.  In a longer list each of them may still be
replaced or dropped against a cross-source near-duplicate, so a general
list containing both need not retain them. -/
theorem claim_C6 (p1 p2 : Post) (hsrc : p1.source = p2.source)
    (_hcontent : p1.content = p2.content) :
    deduplicatePosts [p1, p2] = [p1, p2] := by
  simp [deduplicatePosts, dedupFold, dedupScan, hsrc]

/-- Witness for C6: identical same-source posts are both kept. -/
theorem claim_C6_witness : deduplicatePosts [wPostC, wPostC] = [wPostC, wPostC] :=
  claim_C6 wPostC wPostC rfl rfl

/-! ### C7 -/

/-- C7: sorting with order `relevance` and no query supplied is the same
function of the input list as sorting with order `engagement`. -/
theorem claim_C7 (posts : List Post) :
    sortPosts posts SortOrder.relevance none = sortPosts posts SortOrder.engagement none := rfl

/-! ### C5 -/

/-- C5: `matchesQuery` returns true exactly when every non-empty
lower-cased whitespace-separated query term occurs in the lower-cased
content or in some lower-cased tag; an empty term set always matches; and
the two spec scenarios hold. -/
theorem claim_C5 :
    (∀ content tags query,
      matchesQuery content tags query = true ↔ specMatches content tags query) ∧
    (∀ content tags query, splitWsRuns (lowerL query.data) = [] →
      matchesQuery content tags query = true) ∧
    matchesQuery ("AI and crypto are converging") ([]) ("AI crypto") = true ∧
    matchesQuery ("AI is amazing") ([]) ("AI crypto") = false := by
  refine ⟨?_, matchesQuery_empty_terms, by decide, by decide⟩
  intro content tags query
  by_cases h : splitWsRuns (lowerL query.data) = []
  · simp [matchesQuery, specMatches, h]
  · have hlen : ¬ (splitWsRuns (lowerL query.data)).length = 0 := by
      simpa [List.length_eq_zero] using h
    simp only [matchesQuery, specMatches]
    rw [if_neg hlen]
    simp only [List.all_eq_true, Bool.or_eq_true, List.any_eq_true, isInfixL_iff,
      List.mem_map]
    constructor
    · intro hall term hterm
      rcases hall term hterm with hc | ⟨tg, ⟨tag, htag, rfl⟩, hsub⟩
      · exact Or.inl hc
      · exact Or.inr ⟨tag, htag, hsub⟩
    · intro hall term hterm
      rcases hall term hterm with hc | ⟨tag, htag, hsub⟩
      · exact Or.inl hc
      · exact Or.inr ⟨lowerL tag.data, ⟨tag, htag, rfl⟩, hsub⟩

/-- Witness for C5 at a concrete empty query. -/
theorem claim_C5_witness : matchesQuery ("anything") ([]) ("") = true :=
  claim_C5.2.1 ("anything") ([]) ("") (by decide)

/-! ### C9 -/

/-- Folding post-list concatenation over fetch results. -/
theorem foldl_posts_append (results : List FetchResult) : ∀ acc : List Post,
    results.foldl (fun acc r => acc ++ r.posts) acc =
      acc ++ (results.map FetchResult.posts).flatten := by
  induction results with
  | nil => intro acc; simp
  | cons r rest ih => intro acc; simp [ih, List.append_assoc]

/-- C9: the meta envelope carries each per-source error string through
unmodified (entry i of `sources` holds exactly the error of fetch result
i, absent when absent), and the merged, deduplicated, sorted post list
depends only on the per-source post lists, not on the error strings. -/
theorem claim_C9 :
    (∀ (results : List FetchResult) (options : SearchOptions) (now : String) (i : Nat),
      ((buildMeta results options now).sources.get? i).map SourceMeta.error =
        (results.get? i).map FetchResult.error) ∧
    (∀ (results results2 : List FetchResult) (sort : SortOrder) (query : Option String),
      results.map FetchResult.posts = results2.map FetchResult.posts →
      mergeResults results sort query = mergeResults results2 sort query) := by
  constructor
  · intro results options now i
    simp only [buildMeta, List.get?_eq_getElem?, List.getElem?_map]
    cases results[i]? <;> simp
  · intro results results2 sort query h
    unfold mergeResults
    rw [foldl_posts_append, foldl_posts_append, h]

/-- Witness for C9: a concrete error string is preserved in the meta and
removing it leaves the merged post list unchanged. -/
theorem claim_C9_witness :
    ((buildMeta wRes1 wOpts ("t")).sources.get? 0).map SourceMeta.error =
      (wRes1.get? 0).map FetchResult.error ∧
    mergeResults wRes1 SortOrder.engagement none =
      mergeResults wRes2 SortOrder.engagement none :=
  ⟨claim_C9.1 wRes1 wOpts ("t") 0,
   claim_C9.2 wRes1 wRes2 SortOrder.engagement none rfl⟩

/-! ### C1 -/

theorem matchCount_comm : ∀ a b : List Char, matchCount a b = matchCount b a
  | [], [] => rfl
  | [], _ :: _ => rfl
  | _ :: _, [] => rfl
  | a :: as, b :: bs => by
    simp only [matchCount, matchCount_comm as bs]
    congr 1
    rcases eq_or_ne a b with rfl | h
    · rfl
    · simp [h, Ne.symm h]

theorem simRatio_comm (a b : List Char) : simRatio a b = simRatio b a := by
  unfold simRatio
  rcases le_or_lt a.length b.length with hab | hab
  · rcases le_or_lt b.length a.length with hba | hba
    · have hlen : a.length = b.length := le_antisymm hab hba
      simp [hab, hba, hlen, matchCount_comm]
    · have hba' : ¬ b.length ≤ a.length := not_le.mpr hba
      simp [hab, hba', matchCount_comm]
  · have hab' : ¬ a.length ≤ b.length := not_le.mpr hab
    have hba : b.length ≤ a.length := le_of_lt hab
    simp [hab', hba, matchCount_comm]

theorem four_fifths_lt_div (m n : Nat) (hn : n ≠ 0) :
    ((4 : ℚ) / 5 < (m : ℚ) / (n : ℚ)) ↔ 4 * n < 5 * m := by
  have hn' : (0 : ℚ) < (n : ℚ) := by exact_mod_cast Nat.pos_of_ne_zero hn
  rw [div_lt_div_iff₀ (by norm_num) hn',
    show ((4 : ℚ) * (n : ℚ) = ((4 * n : ℕ) : ℚ)) from by push_cast; ring,
    show ((m : ℚ) * 5 = ((5 * m : ℕ) : ℚ)) from by push_cast; ring]
  exact Nat.cast_lt

/-- The 0.8 similarity test, restated as a decidable comparison of
natural numbers. -/
theorem simRatio_gt (a b : List Char) :
    ((4 : ℚ) / 5 < simRatio a b) ↔
      ((if a.length ≤ b.length then b else a).length = 0 ∨
        4 * (if a.length ≤ b.length then b else a).length <
          5 * matchCount (if a.length ≤ b.length then a else b)
            (if a.length ≤ b.length then b else a)) := by
  simp only [simRatio]
  by_cases h : a.length ≤ b.length
  · simp only [h, if_true]
    by_cases hz : b.length = 0
    · rw [if_pos hz]
      simp only [hz, true_or, iff_true]
      norm_num
    · rw [if_neg hz, four_fifths_lt_div _ _ hz]
      simp [hz]
  · simp only [h, if_false]
    by_cases hz : a.length = 0
    · rw [if_pos hz]
      simp only [hz, true_or, iff_true]
      norm_num
    · rw [if_neg hz, four_fifths_lt_div _ _ hz]
      simp [hz]

/-- C1 (amended): for two posts from different sources whose normalized
contents truncated to their first 200 characters have similarity ratio
above 0.8, `deduplicatePosts` of the pair returns exactly the one with
engagement score at least the other one (the first on a tie). -/
theorem claim_C1 (p1 p2 : Post) (hsrc : ¬ p1.source = p2.source)
    (hsim : simRatio (norm200 p1) (norm200 p2) > (4 : ℚ) / 5) :
    (deduplicatePosts [p1, p2] = [p1] ∧
      computeEngagementScore p2 ≤ computeEngagementScore p1) ∨
    (deduplicatePosts [p1, p2] = [p2] ∧
      computeEngagementScore p1 ≤ computeEngagementScore p2) := by
  have hsim2 : simRatio (norm200 p2) (norm200 p1) > (4 : ℚ) / 5 := by
    rw [simRatio_comm]; exact hsim
  by_cases heng : computeEngagementScore p1 < computeEngagementScore p2
  · right
    refine ⟨?_, le_of_lt heng⟩
    simp [deduplicatePosts, dedupFold, dedupScan, hsrc, hsim2, heng]
  · left
    refine ⟨?_, not_lt.mp heng⟩
    simp [deduplicatePosts, dedupFold, dedupScan, hsrc, hsim2, heng]

/-- Witness for C1 at a concrete cross-source near-duplicate pair. -/
theorem claim_C1_witness :
    (deduplicatePosts [wPostC, wPostD] = [wPostC] ∧
      computeEngagementScore wPostD ≤ computeEngagementScore wPostC) ∨
    (deduplicatePosts [wPostC, wPostD] = [wPostD] ∧
      computeEngagementScore wPostC ≤ computeEngagementScore wPostD) :=
  claim_C1 wPostC wPostD (by decide)
    (by rw [gt_iff_lt, simRatio_gt]; decide)

set_option maxRecDepth 100000 in
/-- Counterexample to C1 as stated: with 300-character contents whose
untruncated similarity is above 0.8 but whose similarity on the first
200 characters is not, both posts are kept. -/
theorem claim_C1_counterexample :
    ¬ cxPostA.source = cxPostB.source ∧
    simRatio (normalizeL cxPostA.content.data) (normalizeL cxPostB.content.data) >
      (4 : ℚ) / 5 ∧
    deduplicatePosts [cxPostA, cxPostB] = [cxPostA, cxPostB] := by
  refine ⟨by decide, by rw [gt_iff_lt, simRatio_gt]; decide, ?_⟩
  have hsrc : ¬ cxPostA.source = cxPostB.source := by decide
  have hno : ¬ ((4 : ℚ) / 5 < simRatio (norm200 cxPostB) (norm200 cxPostA)) := by
    rw [simRatio_gt]; decide
  simp [deduplicatePosts, dedupFold, dedupScan, hsrc, hno]

/-- Counterexample to C6 as stated: a list containing two identical
same-source posts need not retain them.  With a cross-source
near-duplicate of higher engagement between them, the first same-source
post is replaced by it and the second is dropped against it, so
`deduplicate` returns only the cross-source post. -/
theorem claim_C6_counterexample :
    cxSamePostA.source = cxSamePostB.source ∧
    cxSamePostA.content = cxSamePostB.content ∧
    deduplicatePosts [cxSamePostA, cxCrossPost, cxSamePostB] = [cxCrossPost] ∧
    cxSamePostA ∉ deduplicatePosts [cxSamePostA, cxCrossPost, cxSamePostB] ∧
    cxSamePostB ∉ deduplicatePosts [cxSamePostA, cxCrossPost, cxSamePostB] := by
  have h1 : (4 : ℚ) / 5 < simRatio (norm200 cxCrossPost) (norm200 cxSamePostA) := by
    rw [simRatio_gt]
    decide
  have h2 : (4 : ℚ) / 5 < simRatio (norm200 cxSamePostB) (norm200 cxCrossPost) := by
    rw [simRatio_gt]
    decide
  have hs1 : ¬ cxSamePostA.source = cxCrossPost.source := by decide
  have hs2 : ¬ cxCrossPost.source = cxSamePostB.source := by decide
  have he1 : computeEngagementScore cxSamePostA < computeEngagementScore cxCrossPost := by
    decide
  have he2 : ¬ (computeEngagementScore cxCrossPost < computeEngagementScore cxSamePostB) := by
    decide
  have hmain : deduplicatePosts [cxSamePostA, cxCrossPost, cxSamePostB] = [cxCrossPost] := by
    simp [deduplicatePosts, dedupFold, dedupScan, hs1, hs2, h1, h2, he1, he2]
  refine ⟨rfl, rfl, hmain, ?_, ?_⟩ <;> rw [hmain] <;> decide

/-! ### C2 -/

theorem engagementLe_iff (a b : Post) :
    engagementLe a b ↔
      (computeEngagementScore b < computeEngagementScore a ∨
        (computeEngagementScore a = computeEngagementScore b ∧
          b.timestamp ≤ a.timestamp)) := by
  simp only [engagementLe, engagementCmp]
  by_cases h : ((computeEngagementScore b : Int) - (computeEngagementScore a : Int)) ≠ 0
  · rw [if_pos h]; omega
  · rw [if_neg h]; omega

theorem relevanceLe_iff (q : String) (a b : Post) :
    relevanceLe q a b ↔
      ((qMatch q a = true ∧ qMatch q b = false) ∨
        (qMatch q a = qMatch q b ∧
          (computeEngagementScore b < computeEngagementScore a ∨
            (computeEngagementScore a = computeEngagementScore b ∧
              b.timestamp ≤ a.timestamp)))) := by
  have he := engagementLe_iff a b
  simp only [engagementLe] at he
  simp only [relevanceLe, relevanceCmp, qMatch] at *
  cases ha : matchesQuery a.content (a.tags.getD []) q <;>
    cases hb : matchesQuery b.content (b.tags.getD []) q <;>
      simp [ha, hb, he]

theorem engagementLe_total (a b : Post) : engagementLe a b ∨ engagementLe b a := by
  rw [engagementLe_iff, engagementLe_iff]; omega

theorem engagementLe_trans {a b c : Post} :
    engagementLe a b → engagementLe b c → engagementLe a c := by
  rw [engagementLe_iff, engagementLe_iff, engagementLe_iff]; omega

instance : IsTotal Post engagementLe := ⟨engagementLe_total⟩

instance : IsTrans Post engagementLe := ⟨fun _ _ _ => engagementLe_trans⟩

theorem relevanceLe_total (q : String) (a b : Post) :
    relevanceLe q a b ∨ relevanceLe q b a := by
  rw [relevanceLe_iff, relevanceLe_iff]
  cases qMatch q a <;> cases qMatch q b <;> simp <;> omega

theorem relevanceLe_trans (q : String) {a b c : Post} :
    relevanceLe q a b → relevanceLe q b c → relevanceLe q a c := by
  rw [relevanceLe_iff, relevanceLe_iff, relevanceLe_iff]
  cases qMatch q a <;> cases qMatch q b <;> cases qMatch q c <;> simp <;> omega

instance (q : String) : IsTotal Post (relevanceLe q) := ⟨relevanceLe_total q⟩

instance (q : String) : IsTrans Post (relevanceLe q) := ⟨fun _ _ _ => relevanceLe_trans q⟩

/-- The matcher, and hence `qMatch`, accepts everything on an empty
query. -/
theorem qMatch_empty (p : Post) : qMatch ("") p = true := rfl

/-- C2: after sorting with order `relevance` and query `q`, every
matching post precedes every non-matching post, and any earlier post
relates to any later one by the engagement order within equal match
status (greater engagement score first, ties by more recent timestamp). -/
theorem claim_C2 (posts : List Post) (q : String) :
    (sortPosts posts SortOrder.relevance (some q)).Pairwise
      (fun a b =>
        (qMatch q a = true ∧ qMatch q b = false) ∨
        (qMatch q a = qMatch q b ∧
          (computeEngagementScore b < computeEngagementScore a ∨
            (computeEngagementScore a = computeEngagementScore b ∧
              b.timestamp ≤ a.timestamp)))) := by
  simp only [sortPosts]
  by_cases hq : q = ""
  · rw [if_pos hq]
    subst hq
    refine (List.sorted_insertionSort engagementLe posts).imp ?_
    intro a b hab
    exact Or.inr ⟨by rw [qMatch_empty, qMatch_empty], (engagementLe_iff a b).mp hab⟩
  · rw [if_neg hq]
    refine (List.sorted_insertionSort (relevanceLe q) posts).imp ?_
    intro a b hab
    exact (relevanceLe_iff q a b).mp hab

/-! ### C4 -/

theorem srcLe_iff (a b : SourceTerms) :
    srcLe a b ↔ srcIndex a.source ≤ srcIndex b.source := by
  simp only [srcLe]; omega

theorem srcLe_total (a b : SourceTerms) : srcLe a b ∨ srcLe b a := by
  rw [srcLe_iff, srcLe_iff]; omega

theorem srcLe_trans {a b c : SourceTerms} : srcLe a b → srcLe b c → srcLe a c := by
  rw [srcLe_iff, srcLe_iff, srcLe_iff]; omega

instance : IsTotal SourceTerms srcLe := ⟨srcLe_total⟩

instance : IsTrans SourceTerms srcLe := ⟨fun _ _ _ => srcLe_trans⟩

/-- C4: the source groups of `extractTermsBySource` are ordered by
position in the fixed canonical sequence `sourceOrder`; moreover every
group source is a member of that sequence, so the clause about sources
absent from the sequence is vacuous. -/
theorem claim_C4 (posts : List Post) (topN : Nat) (tf now : String) :
    ((extractTermsBySource posts topN tf now).bySource.Pairwise
      (fun g1 g2 => srcIndex g1.source ≤ srcIndex g2.source)) ∧
    ∀ g ∈ (extractTermsBySource posts topN tf now).bySource,
      g.source ∈ sourceOrder := by
  constructor
  · simp only [extractTermsBySource]
    exact (List.sorted_insertionSort srcLe _).imp (fun h => (srcLe_iff _ _).mp h)
  · intro g _
    cases h : g.source <;> simp [sourceOrder, h]

/-! ### C3 -/

/-- Invariant of the selection walk: accumulated terms pairwise avoid the
constituents of earlier bigrams, provided every accumulated bigram has
its parts suppressed; and every term the walk emits beyond the
accumulator has a token that was not suppressed on entry. -/
theorem selectLoop_spec (topN : Nat) :
    ∀ (entries : List (String × Entry)) (sup : List String) (acc : List Term),
      acc.Pairwise (fun t u => ' ' ∈ t.token.data → u.token ∉ tokenParts t.token) →
      (∀ t ∈ acc, ' ' ∈ t.token.data → ∀ p ∈ tokenParts t.token, p ∈ sup) →
      (selectLoop topN entries sup acc).Pairwise
          (fun t u => ' ' ∈ t.token.data → u.token ∉ tokenParts t.token) ∧
        ∀ u ∈ selectLoop topN entries sup acc, u ∈ acc ∨ u.token ∉ sup := by
  intro entries
  induction entries with
  | nil =>
    intro sup acc h1 _h2
    exact ⟨h1, fun u hu => Or.inl hu⟩
  | cons te rest ih =>
    intro sup acc h1 h2
    obtain ⟨tok, e⟩ := te
    simp only [selectLoop]
    by_cases hmem : tok ∈ sup
    · rw [if_pos hmem]
      exact ih sup acc h1 h2
    · rw [if_neg hmem]
      have hpair2 : (acc ++ [Term.mk tok (roundScore e.weight) e.postIds.length]).Pairwise
          (fun t u => ' ' ∈ t.token.data → u.token ∉ tokenParts t.token) := by
        rw [List.pairwise_append]
        refine ⟨h1, List.pairwise_singleton _ _, ?_⟩
        intro t ht u hu hsp
        rw [List.mem_singleton] at hu
        subst hu
        intro hin
        exact hmem (h2 t ht hsp _ hin)
      by_cases hstop : topN ≤ (acc ++ [Term.mk tok (roundScore e.weight) e.postIds.length]).length
      · rw [if_pos hstop]
        refine ⟨hpair2, ?_⟩
        intro u hu
        rw [List.mem_append, List.mem_singleton] at hu
        rcases hu with hu | rfl
        · exact Or.inl hu
        · exact Or.inr hmem
      · rw [if_neg hstop]
        have hsub : ∀ p ∈ sup,
            p ∈ (if ' ' ∈ tok.data then sup ++ tokenParts tok else sup) := by
          intro p hp
          by_cases hsp : ' ' ∈ tok.data
          · rw [if_pos hsp]; exact List.mem_append_left _ hp
          · rw [if_neg hsp]; exact hp
        have h2' : ∀ t ∈ acc ++ [Term.mk tok (roundScore e.weight) e.postIds.length],
            ' ' ∈ t.token.data → ∀ p ∈ tokenParts t.token,
              p ∈ (if ' ' ∈ tok.data then sup ++ tokenParts tok else sup) := by
          intro t ht hsp p hp
          rw [List.mem_append, List.mem_singleton] at ht
          rcases ht with ht | rfl
          · exact hsub p (h2 t ht hsp p hp)
          · rw [if_pos hsp]
            exact List.mem_append_right _ hp
        obtain ⟨ha, hb⟩ := ih _ _ hpair2 h2'
        refine ⟨ha, ?_⟩
        intro u hu
        rcases hb u hu with hu2 | hu2
        · rw [List.mem_append, List.mem_singleton] at hu2
          rcases hu2 with hu2 | rfl
          · exact Or.inl hu2
          · exact Or.inr hmem
        · right
          intro hc
          exact hu2 (hsub _ hc)

/-- C3 (amended): when the extractTerms result contains a bigram, the
constituent unigrams of that bigram do not appear at any position after
it; they may still appear before it when they outweigh the bigram. -/
theorem claim_C3 (posts : List Post) (topN : Nat) :
    (extractTerms posts topN).Pairwise
      (fun t u => ' ' ∈ t.token.data → u.token ∉ tokenParts t.token) := by
  unfold extractTerms
  exact (selectLoop_spec topN _ [] [] List.Pairwise.nil (by simp)).1

set_option maxRecDepth 100000 in
/-- Counterexample to C3 as stated: on `cxTermPosts` the result is
`[foo, foo bar, bar alpha]`, so the bigram `foo bar` appears together
with its constituent `foo` at an earlier position. -/
theorem claim_C3_counterexample :
    (extractTerms cxTermPosts 3).map Term.token =
      [("foo"), ("foo bar"), ("bar alpha")] ∧
    ¬ constituentFreeBoth (extractTerms cxTermPosts 3) := by
  constructor
  · decide
  · unfold constituentFreeBoth
    decide

/-! ### C10: character-level facts -/

theorem char_ofNat_toNat {n : Nat} (h : n < 55296) : (Char.ofNat n).toNat = n := by
  unfold Char.ofNat
  rw [dif_pos (Or.inl h)]
  rfl

theorem toLower_toLower (c : Char) : (Char.toLower c).toLower = Char.toLower c := by
  unfold Char.toLower
  by_cases h : c.toNat ≥ 65 ∧ c.toNat ≤ 90
  · rw [if_pos h]
    have h2 : (Char.ofNat (c.toNat + 32)).toNat = c.toNat + 32 :=
      char_ofNat_toNat (by omega)
    rw [h2, if_neg (by omega)]
  · rw [if_neg h, if_neg h]

theorem toLower_space : Char.toLower ' ' = ' ' := by decide

theorem map_id_of_fix {f : Char → Char} :
    ∀ l : List Char, (∀ c ∈ l, f c = c) → l.map f = l := by
  intro l h
  induction l with
  | nil => rfl
  | cons c t ih =>
    rw [List.map_cons, h c (List.mem_cons_self c t),
      ih (fun d hd => h d (List.mem_cons_of_mem c hd))]

/-! ### C10: membership through the passes -/

theorem urlTail_some_subset {l r : List Char} (h : urlTail l = some r) :
    ∀ c, c ∈ r → c ∈ l := by
  intro c hc
  unfold urlTail at h
  split at h
  · split at h
    · exact absurd h (by simp)
    · rename_i hd
      split at h
      · exact absurd h (by simp)
      · injection h with h
        subst h
        have h1 := (List.dropWhile_sublist (fun x => !isJsWS x)).subset hc
        rw [← hd] at h1
        exact (List.drop_sublist _ _).subset h1
  · exact absurd h (by simp)

theorem mem_removeURLsAux : ∀ (fuel : Nat) (l : List Char) (c : Char),
    c ∈ removeURLsAux fuel l → c ∈ l := by
  intro fuel
  induction fuel with
  | zero => intro l c h; exact h
  | succ f ih =>
    intro l c h
    cases l with
    | nil => simp [removeURLsAux] at h
    | cons d t =>
      simp only [removeURLsAux] at h
      split at h
      · rename_i r hu
        exact urlTail_some_subset hu c (ih r c h)
      · rcases List.mem_cons.mp h with rfl | h2
        · exact List.mem_cons_self _ _
        · exact List.mem_cons_of_mem _ (ih t c h2)

theorem mem_collapseGo : ∀ (l : List Char) (b : Bool) (c : Char),
    c ∈ collapseGo l b → c ∈ l ∨ c = ' ' := by
  intro l
  induction l with
  | nil => intro b c h; simp [collapseGo] at h
  | cons d t ih =>
    intro b c h
    by_cases hw : isJsWS d
    · cases b with
      | true =>
        simp only [collapseGo, hw, if_true, ite_true] at h
        rcases ih true c h with h2 | h2
        · exact Or.inl (List.mem_cons_of_mem _ h2)
        · exact Or.inr h2
      | false =>
        simp only [collapseGo, hw, if_true, ite_false, Bool.false_eq_true] at h
        rcases List.mem_cons.mp h with rfl | h2
        · exact Or.inr rfl
        · rcases ih true c h2 with h3 | h3
          · exact Or.inl (List.mem_cons_of_mem _ h3)
          · exact Or.inr h3
    · simp only [collapseGo, hw, if_false, Bool.false_eq_true, ite_false] at h
      rcases List.mem_cons.mp h with rfl | h2
      · exact Or.inl (List.mem_cons_self _ _)
      · rcases ih false c h2 with h3 | h3
        · exact Or.inl (List.mem_cons_of_mem _ h3)
        · exact Or.inr h3

theorem mem_trimWS {l : List Char} {c : Char} (h : c ∈ trimWS l) : c ∈ l := by
  unfold trimWS at h
  rw [List.mem_reverse] at h
  have h1 : c ∈ (l.dropWhile isJsWS).reverse :=
    (List.dropWhile_sublist isJsWS).subset h
  rw [List.mem_reverse] at h1
  exact (List.dropWhile_sublist isJsWS).subset h1

/-! ### C10: the scheme matcher through position windows -/

theorem take_eq_of_agree {l l' : List Char} {n : Nat}
    (h : ∀ i, i < n → l[i]? = l'[i]?) : l.take n = l'.take n := by
  apply List.ext_getElem?
  intro i
  by_cases hi : i < n
  · rw [List.getElem?_take_of_lt hi, List.getElem?_take_of_lt hi]
    exact h i hi
  · have h1 : (l.take n).length ≤ i := by rw [List.length_take]; omega
    have h2 : (l'.take n).length ≤ i := by rw [List.length_take]; omega
    rw [List.getElem?_eq_none h1, List.getElem?_eq_none h2]

theorem getElem?_of_take_eq {l s : List Char} {n : Nat} (h : l.take n = s)
    {i : Nat} (hi : i < n) : l[i]? = s[i]? := by
  rw [← h, List.getElem?_take_of_lt hi]

theorem schemeLen_congr {l l' : List Char}
    (h : ∀ i, i < 8 → l[i]? = l'[i]?) : schemeLen l = schemeLen l' := by
  have h8 : l.take 8 = l'.take 8 := take_eq_of_agree h
  have h7 : l.take 7 = l'.take 7 := take_eq_of_agree (fun i hi => h i (by omega))
  unfold schemeLen
  rw [h8, h7]

theorem schemeLen_cases {l : List Char} {k : Nat} (h : schemeLen l = some k) :
    (k = 8 ∧ l.take 8 = httpsL) ∨ (k = 7 ∧ l.take 7 = httpL) := by
  unfold schemeLen at h
  by_cases h8 : l.take 8 = httpsL
  · rw [if_pos h8] at h
    injection h with h
    exact Or.inl ⟨h.symm, h8⟩
  · rw [if_neg h8] at h
    by_cases h7 : l.take 7 = httpL
    · rw [if_pos h7] at h
      injection h with h
      exact Or.inr ⟨h.symm, h7⟩
    · rw [if_neg h7] at h
      cases h

theorem urlTail_eq_none_iff {l : List Char} :
    urlTail l = none ↔
      schemeLen l = none ∨ ∃ k, schemeLen l = some k ∧ wsOrEnd l[k]? := by
  unfold urlTail
  cases hs : schemeLen l with
  | none => simp
  | some k =>
    cases hd : l.drop k with
    | nil =>
      have hk : l[k]? = none := by rw [← List.head?_drop, hd]; rfl
      constructor
      · intro _
        refine Or.inr ⟨k, rfl, ?_⟩
        rw [hk]
        trivial
      · intro _
        simp [hd]
    | cons d rest =>
      have hk : l[k]? = some d := by rw [← List.head?_drop, hd]; rfl
      by_cases hw : isJsWS d
      · constructor
        · intro _
          refine Or.inr ⟨k, rfl, ?_⟩
          rw [hk]
          exact hw
        · intro _
          simp [hd, hw]
      · constructor
        · intro h
          exfalso
          simp [hd, hw] at h
        · rintro (h | ⟨k', hk', hws⟩)
          · cases h
          · exfalso
            injection hk' with he
            subst he
            rw [hk] at hws
            exact hw hws

theorem not_wsOrEnd {o : Option Char} (h : ¬ wsOrEnd o) :
    ∃ d, o = some d ∧ isJsWS d = false := by
  cases o with
  | none => exact absurd trivial h
  | some d =>
    refine ⟨d, rfl, ?_⟩
    by_cases hw : isJsWS d
    · exact absurd hw h
    · simp at hw
      exact hw

/-- Transfer core: an agreeing window moves a URL match from `c :: m'`
back to `c :: m`, contradicting that `c :: m` has no match at its head. -/
theorem transfer_core {m m' : List Char} (c : Char) {k : Nat}
    (hk : k = 7 ∨ k = 8)
    (hagree : ∀ i, i < k → m'[i]? = m[i]?)
    (hsk : schemeLen (c :: m') = some k)
    {d : Char} (hd : (c :: m')[k]? = some d) (hdw : isJsWS d = false)
    (hnone : urlTail (c :: m) = none) : False := by
  have hcons : ∀ i, i < 8 → (c :: m)[i]? = (c :: m')[i]? := by
    intro i hi
    cases i with
    | zero => rw [List.getElem?_cons_zero, List.getElem?_cons_zero]
    | succ j =>
      simp only [List.getElem?_cons_succ]
      exact (hagree j (by omega)).symm
  have hs2 : schemeLen (c :: m) = some k := by
    rw [schemeLen_congr hcons]
    exact hsk
  have h8 : (c :: m)[k]? = some d := by
    rcases hk with rfl | rfl
    · rw [List.getElem?_cons_succ] at hd ⊢
      rw [← hagree 6 (by omega)]
      exact hd
    · rw [List.getElem?_cons_succ] at hd ⊢
      rw [← hagree 7 (by omega)]
      exact hd
  rcases urlTail_eq_none_iff.mp hnone with h | ⟨k', hk', hws'⟩
  · rw [hs2] at h
    cases h
  · rw [hs2] at hk'
    injection hk' with he
    subst he
    rw [h8] at hws'
    exact absurd hws' (by simp [wsOrEnd, hdw])

/-- The transfer lemma: a pass that leaves a seam (`seamRel`) cannot
create a URL match at a position where the original had none. -/
theorem urlTail_none_transfer {m m' : List Char} (c : Char) (hseam : seamRel m m')
    (hnone : urlTail (c :: m) = none) : urlTail (c :: m') = none := by
  by_contra hne
  have hs' : ∃ k, schemeLen (c :: m') = some k ∧ ¬ wsOrEnd (c :: m')[k]? := by
    cases hsk : schemeLen (c :: m') with
    | none => exact absurd (urlTail_eq_none_iff.mpr (Or.inl hsk)) hne
    | some k =>
      refine ⟨k, rfl, fun hws => ?_⟩
      exact hne (urlTail_eq_none_iff.mpr (Or.inr ⟨k, hsk, hws⟩))
  obtain ⟨k, hsk, hws⟩ := hs'
  obtain ⟨d, hd, hdw⟩ := not_wsOrEnd hws
  rcases schemeLen_cases hsk with ⟨rfl, htake⟩ | ⟨rfl, htake⟩
  · -- https match in c :: m'
    have hm7 : m'[7]? = some d := by
      rw [List.getElem?_cons_succ] at hd
      exact hd
    have hchars : ∀ j, j < 7 → ∃ e, m'[j]? = some e ∧ isJsWS e = false := by
      intro j hj
      have h1 : (c :: m')[j + 1]? = httpsL[j + 1]? := getElem?_of_take_eq htake (by omega)
      rw [List.getElem?_cons_succ] at h1
      interval_cases j <;> exact ⟨_, h1, by decide⟩
    rcases hseam with hagree | ⟨n, hn8, hagree, hwsn⟩
    · exact transfer_core c (Or.inr rfl) (fun i hi => hagree i hi) hsk hd hdw hnone
    · by_cases hn7 : n = 7
      · subst hn7
        rw [hm7] at hwsn
        exact absurd hwsn (by simp [wsOrEnd, hdw])
      · obtain ⟨e, he, hew⟩ := hchars n (by omega)
        rw [he] at hwsn
        exact absurd hwsn (by simp [wsOrEnd, hew])
  · -- http match in c :: m'
    have hm6 : m'[6]? = some d := by
      rw [List.getElem?_cons_succ] at hd
      exact hd
    have hchars : ∀ j, j < 6 → ∃ e, m'[j]? = some e ∧ isJsWS e = false := by
      intro j hj
      have h1 : (c :: m')[j + 1]? = httpL[j + 1]? := getElem?_of_take_eq htake (by omega)
      rw [List.getElem?_cons_succ] at h1
      interval_cases j <;> exact ⟨_, h1, by decide⟩
    rcases hseam with hagree | ⟨n, hn8, hagree, hwsn⟩
    · exact transfer_core c (Or.inl rfl) (fun i hi => hagree i (by omega)) hsk hd hdw hnone
    · rcases Nat.lt_or_ge n 6 with hn6 | hn6
      · obtain ⟨e, he, hew⟩ := hchars n hn6
        rw [he] at hwsn
        exact absurd hwsn (by simp [wsOrEnd, hew])
      · by_cases hn6' : n = 6
        · subst hn6'
          rw [hm6] at hwsn
          exact absurd hwsn (by simp [wsOrEnd, hdw])
        · -- n = 7: agreement below 7 suffices for a length-7 scheme
          have hn7 : n = 7 := by omega
          subst hn7
          exact transfer_core c (Or.inl rfl) (fun i hi => hagree i (by omega)) hsk hd hdw hnone

/-! ### C10: seams left by each pass -/

theorem seamRel_refl (m : List Char) : seamRel m m := Or.inl (fun _ _ => rfl)

theorem seamRel_wsHead {t m : List Char} (h : wsOrEnd m.head?) : seamRel t m := by
  refine Or.inr ⟨0, by omega, fun i hi => absurd hi (by omega), ?_⟩
  cases m with
  | nil => trivial
  | cons c t2 =>
    rw [List.getElem?_cons_zero]
    exact h

theorem seamRel_cons {t m : List Char} (c : Char) (h : seamRel t m) :
    seamRel (c :: t) (c :: m) := by
  rcases h with hagree | ⟨n, hn, hagree, hws⟩
  · left
    intro i hi
    cases i with
    | zero => rw [List.getElem?_cons_zero, List.getElem?_cons_zero]
    | succ j =>
      simp only [List.getElem?_cons_succ]
      exact hagree j (by omega)
  · by_cases hn7 : n + 1 < 8
    · right
      refine ⟨n + 1, hn7, ?_, ?_⟩
      · intro i hi
        cases i with
        | zero => rw [List.getElem?_cons_zero, List.getElem?_cons_zero]
        | succ j =>
          simp only [List.getElem?_cons_succ]
          exact hagree j (by omega)
      · simp only [List.getElem?_cons_succ]
        exact hws
    · left
      intro i hi
      cases i with
      | zero => rw [List.getElem?_cons_zero, List.getElem?_cons_zero]
      | succ j =>
        simp only [List.getElem?_cons_succ]
        exact hagree j (by omega)

theorem schemeLen_head {c : Char} {m : List Char} {k : Nat}
    (h : schemeLen (c :: m) = some k) : c = 'h' := by
  rcases schemeLen_cases h with ⟨_, ht⟩ | ⟨_, ht⟩
  · have h0 := getElem?_of_take_eq ht (show 0 < 8 by omega)
    rw [List.getElem?_cons_zero] at h0
    simpa [httpsL] using h0
  · have h0 := getElem?_of_take_eq ht (show 0 < 7 by omega)
    rw [List.getElem?_cons_zero] at h0
    simpa [httpL] using h0

theorem urlTail_ws_head {c : Char} {m : List Char} (h : isJsWS c = true) :
    urlTail (c :: m) = none := by
  rw [urlTail_eq_none_iff]
  cases hs : schemeLen (c :: m) with
  | none => exact Or.inl rfl
  | some k =>
    exfalso
    have hc := schemeLen_head hs
    subst hc
    exact absurd h (by decide)

theorem urlTail_some_wsHead {l r : List Char} (h : urlTail l = some r) :
    wsOrEnd r.head? := by
  unfold urlTail at h
  split at h
  · split at h
    · exact absurd h (by simp)
    · split at h
      · exact absurd h (by simp)
      · rename_i d rest hd hw
        injection h with h
        subst h
        have hdw := List.head?_dropWhile_not (fun x => !isJsWS x) (d :: rest)
        cases hh : ((d :: rest).dropWhile (fun x => !isJsWS x)).head? with
        | none => trivial
        | some x =>
          rw [hh] at hdw
          simp at hdw
          exact hdw
  · exact absurd h (by simp)

theorem removeURLsAux_wsHead : ∀ (fuel : Nat) (r : List Char),
    wsOrEnd r.head? → wsOrEnd (removeURLsAux fuel r).head? := by
  intro fuel r h
  cases fuel with
  | zero => exact h
  | succ f =>
    cases r with
    | nil => simp only [removeURLsAux]; exact h
    | cons c t =>
      have hu : urlTail (c :: t) = none := urlTail_ws_head h
      simp only [removeURLsAux, hu]
      exact h

theorem urlTail_length {l r : List Char} (h : urlTail l = some r) :
    r.length < l.length := by
  unfold urlTail at h
  split at h
  · rename_i k hs
    split at h
    · exact absurd h (by simp)
    · rename_i d rest hd
      split at h
      · exact absurd h (by simp)
      · injection h with h
        subst h
        have h1 : ((d :: rest).dropWhile (fun x => !isJsWS x)).length ≤ rest.length + 1 := by
          have hsub : ((d :: rest).dropWhile (fun x => !isJsWS x)).length ≤ (d :: rest).length :=
            (List.dropWhile_sublist _).length_le
          simpa using hsub
        have h2 := congrArg List.length hd
        simp only [List.length_drop, List.length_cons] at h2
        rcases schemeLen_cases hs with ⟨rfl, _⟩ | ⟨rfl, _⟩ <;> omega
  · exact absurd h (by simp)

theorem seam_removeURLsAux : ∀ (fuel : Nat) (l : List Char), l.length ≤ fuel →
    seamRel l (removeURLsAux fuel l) := by
  intro fuel
  induction fuel with
  | zero =>
    intro l hl
    have hnil : l = [] := List.eq_nil_of_length_eq_zero (by omega)
    subst hnil
    exact seamRel_refl _
  | succ f ih =>
    intro l hl
    cases l with
    | nil =>
      simp only [removeURLsAux]
      exact seamRel_refl _
    | cons c t =>
      simp only [removeURLsAux]
      split
      · rename_i r hu
        exact seamRel_wsHead (removeURLsAux_wsHead f r (urlTail_some_wsHead hu))
      · simp only [List.length_cons] at hl
        exact seamRel_cons c (ih t (by omega))

theorem seam_collapseGo : ∀ t : List Char, seamRel t (collapseGo t false) := by
  intro t
  induction t with
  | nil => exact seamRel_refl _
  | cons c t ih =>
    by_cases hw : isJsWS c
    · simp only [collapseGo, hw, if_true, Bool.false_eq_true, ite_false]
      exact seamRel_wsHead (show wsOrEnd (some ' ') from (by decide : isJsWS ' ' = true))
    · simp only [collapseGo, hw, Bool.false_eq_true, if_false]
      exact seamRel_cons c ih

/-! ### C10: cleanliness of the passes -/

theorem cleanURL_nil : cleanURL [] := by
  intro t ht
  rw [List.suffix_nil.mp ht]
  decide

theorem cleanURL_suffix {l t : List Char} (h : cleanURL l) (ht : t <:+ l) :
    cleanURL t :=
  fun u hu => h u (hu.trans ht)

theorem cleanURL_cons {c : Char} {l : List Char} (h1 : urlTail (c :: l) = none)
    (h2 : cleanURL l) : cleanURL (c :: l) := by
  intro t ht
  rcases List.suffix_cons_iff.mp ht with rfl | ht2
  · exact h1
  · exact h2 t ht2

theorem cleanURL_removeURLsAux : ∀ (fuel : Nat) (l : List Char), l.length ≤ fuel →
    cleanURL (removeURLsAux fuel l) := by
  intro fuel
  induction fuel with
  | zero =>
    intro l hl
    have hnil : l = [] := List.eq_nil_of_length_eq_zero (by omega)
    subst hnil
    exact cleanURL_nil
  | succ f ih =>
    intro l hl
    cases l with
    | nil =>
      simp only [removeURLsAux]
      exact cleanURL_nil
    | cons c t =>
      simp only [removeURLsAux]
      split
      · rename_i r hu
        have hr := urlTail_length hu
        simp only [List.length_cons] at hl
        rw [List.length_cons] at hr
        exact ih r (by omega)
      · rename_i hu
        simp only [List.length_cons] at hl
        refine cleanURL_cons ?_ (ih t (by omega))
        exact urlTail_none_transfer c (seam_removeURLsAux f t (by omega)) hu

theorem cleanURL_collapseGo : ∀ (l : List Char) (b : Bool), cleanURL l →
    cleanURL (collapseGo l b) := by
  intro l
  induction l with
  | nil =>
    intro b _
    simp only [collapseGo]
    exact cleanURL_nil
  | cons c t ih =>
    intro b h
    have hhead : urlTail (c :: t) = none := h _ (List.suffix_refl _)
    have htail : cleanURL t := cleanURL_suffix h (List.suffix_cons c t)
    by_cases hw : isJsWS c
    · cases b with
      | true =>
        simp only [collapseGo, hw, if_true, ite_true]
        exact ih true htail
      | false =>
        simp only [collapseGo, hw, if_true, Bool.false_eq_true, ite_false]
        exact cleanURL_cons (urlTail_ws_head (by decide)) (ih true htail)
    · simp only [collapseGo, hw, Bool.false_eq_true, if_false]
      exact cleanURL_cons (urlTail_none_transfer c (seam_collapseGo t) hhead)
        (ih false htail)

theorem urlTail_append {t w r : List Char} (h : urlTail t = some r) :
    urlTail (t ++ w) ≠ none := by
  have hne : urlTail t ≠ none := by rw [h]; simp
  have hstruct : ∃ k, schemeLen t = some k ∧ ¬ wsOrEnd t[k]? := by
    cases hsk : schemeLen t with
    | none => exact absurd (urlTail_eq_none_iff.mpr (Or.inl hsk)) hne
    | some k =>
      exact ⟨k, rfl, fun hws => hne (urlTail_eq_none_iff.mpr (Or.inr ⟨k, hsk, hws⟩))⟩
  obtain ⟨k, hsk, hws⟩ := hstruct
  obtain ⟨d, hd, hdw⟩ := not_wsOrEnd hws
  have hlen : k < t.length := by
    by_contra hge
    rw [List.getElem?_eq_none (by omega)] at hd
    cases hd
  have hlen8 : 8 ≤ t.length := by
    rcases schemeLen_cases hsk with ⟨rfl, _⟩ | ⟨rfl, _⟩ <;> omega
  have hagree : ∀ i, i < 8 → (t ++ w)[i]? = t[i]? := by
    intro i hi
    exact List.getElem?_append_left (by omega)
  have hs2 : schemeLen (t ++ w) = schemeLen t := schemeLen_congr hagree
  intro hcon
  rcases urlTail_eq_none_iff.mp hcon with hnone | ⟨k', hk', hws'⟩
  · rw [hs2, hsk] at hnone
    cases hnone
  · rw [hs2, hsk] at hk'
    injection hk' with he
    subst he
    have hdk : (t ++ w)[k]? = some d := by
      rw [List.getElem?_append_left hlen]
      exact hd
    rw [hdk] at hws'
    exact absurd hws' (by simp [wsOrEnd, hdw])

theorem cleanURL_of_append {l w : List Char} (h : cleanURL (l ++ w)) :
    cleanURL l := by
  intro t ht
  cases hu : urlTail t with
  | none => rfl
  | some r =>
    exfalso
    have hsuf : t ++ w <:+ l ++ w := by
      obtain ⟨u, hu2⟩ := ht
      exact ⟨u, by rw [← List.append_assoc, hu2]⟩
    exact urlTail_append hu (h _ hsuf)

theorem cleanURL_trimWS {l : List Char} (h : cleanURL l) : cleanURL (trimWS l) := by
  unfold trimWS
  have h1 : cleanURL (l.dropWhile isJsWS) :=
    cleanURL_suffix h (List.dropWhile_suffix _)
  have hsplit : l.dropWhile isJsWS =
      ((l.dropWhile isJsWS).reverse.dropWhile isJsWS).reverse ++
        ((l.dropWhile isJsWS).reverse.takeWhile isJsWS).reverse := by
    have h2 := congrArg List.reverse
      (List.takeWhile_append_dropWhile isJsWS ((l.dropWhile isJsWS).reverse))
    rw [List.reverse_append, List.reverse_reverse] at h2
    exact h2.symm
  exact cleanURL_of_append (by rw [← hsplit]; exact h1)

theorem removeURLsAux_eq_self : ∀ (fuel : Nat) (l : List Char), cleanURL l →
    removeURLsAux fuel l = l := by
  intro fuel
  induction fuel with
  | zero => intro l _; rfl
  | succ f ih =>
    intro l h
    cases l with
    | nil => rfl
    | cons c t =>
      have hhead : urlTail (c :: t) = none := h _ (List.suffix_refl _)
      simp only [removeURLsAux, hhead]
      rw [ih t (cleanURL_suffix h (List.suffix_cons c t))]

/-! ### C10: shape of the collapsed, trimmed output -/

theorem collapseGo_headNotWs_true : ∀ t : List Char, headNotWs (collapseGo t true) := by
  intro t
  induction t with
  | nil =>
    intro c hc
    simp [collapseGo] at hc
  | cons d t ih =>
    by_cases hw : isJsWS d
    · simp only [collapseGo, hw, if_true, ite_true]
      exact ih
    · simp only [collapseGo, hw, Bool.false_eq_true, if_false]
      intro c hc
      rw [List.head?_cons] at hc
      injection hc with hc
      subst hc
      simpa using hw

theorem noWsPair_collapseGo : ∀ (t : List Char) (b : Bool), noWsPair (collapseGo t b) := by
  intro t
  induction t with
  | nil =>
    intro b
    simp only [collapseGo]
    exact List.chain'_nil
  | cons d t ih =>
    intro b
    by_cases hw : isJsWS d
    · cases b with
      | true =>
        simp only [collapseGo, hw, if_true, ite_true]
        exact ih true
      | false =>
        simp only [collapseGo, hw, if_true, Bool.false_eq_true, ite_false]
        rw [noWsPair, List.chain'_cons']
        constructor
        · intro y hy hcon
          have hys := collapseGo_headNotWs_true t y (Option.mem_def.mp hy)
          rw [hys] at hcon
          simp at hcon
        · exact ih true
    · simp only [collapseGo, hw, Bool.false_eq_true, if_false]
      rw [noWsPair, List.chain'_cons']
      refine ⟨?_, ih false⟩
      intro y _ hcon
      exact hw hcon.1

theorem spacesOnly_collapseGo : ∀ (t : List Char) (b : Bool), spacesOnly (collapseGo t b) := by
  intro t
  induction t with
  | nil =>
    intro b c hc
    simp [collapseGo] at hc
  | cons d t ih =>
    intro b c hc hwc
    by_cases hw : isJsWS d
    · cases b with
      | true =>
        simp only [collapseGo, hw, if_true, ite_true] at hc
        exact ih true c hc hwc
      | false =>
        simp only [collapseGo, hw, if_true, Bool.false_eq_true, ite_false] at hc
        rcases List.mem_cons.mp hc with rfl | hc2
        · rfl
        · exact ih true c hc2 hwc
    · simp only [collapseGo, hw, Bool.false_eq_true, if_false] at hc
      rcases List.mem_cons.mp hc with rfl | hc2
      · exact absurd hwc hw
      · exact ih false c hc2 hwc

theorem collapseGo_true_eq_false {t : List Char} (h : headNotWs t) :
    collapseGo t true = collapseGo t false := by
  cases t with
  | nil => rfl
  | cons d t2 =>
    have hd := h d rfl
    simp only [collapseGo, hd, Bool.false_eq_true, if_false]

theorem collapseGo_id : ∀ t : List Char, spacesOnly t → noWsPair t →
    collapseGo t false = t := by
  intro t
  induction t with
  | nil => intro _ _; rfl
  | cons d t ih =>
    intro hsp hnp
    have htail_sp : spacesOnly t := fun c hc => hsp c (List.mem_cons_of_mem _ hc)
    have htail_np : noWsPair t := hnp.tail
    by_cases hw : isJsWS d
    · have hd : d = ' ' := hsp d (List.mem_cons_self _ _) hw
      subst hd
      simp only [collapseGo, hw, if_true, Bool.false_eq_true, ite_false]
      have hht : headNotWs t := by
        intro c hc
        have hpair := (List.chain'_cons'.mp hnp).1 c (Option.mem_def.mpr hc)
        by_cases hwc : isJsWS c
        · exact absurd ⟨by decide, hwc⟩ hpair
        · simpa using hwc
      rw [collapseGo_true_eq_false hht, ih htail_sp htail_np]
    · simp only [collapseGo, hw, Bool.false_eq_true, if_false]
      rw [ih htail_sp htail_np]

theorem headNotWs_dropWhile (l : List Char) : headNotWs (l.dropWhile isJsWS) := by
  intro c hc
  have hdw := List.head?_dropWhile_not isJsWS l
  rw [hc] at hdw
  exact hdw

theorem noWsPair_suffix {l t : List Char} (h : noWsPair l) (ht : t <:+ l) :
    noWsPair t :=
  h.suffix ht

theorem noWsPair_reverse {l : List Char} (h : noWsPair l) : noWsPair l.reverse := by
  rw [noWsPair, List.chain'_reverse]
  exact h.imp (fun _ _ hab hc => hab ⟨hc.2, hc.1⟩)

theorem noWsPair_trimWS {l : List Char} (h : noWsPair l) : noWsPair (trimWS l) := by
  unfold trimWS
  exact noWsPair_reverse
    (noWsPair_suffix
      (noWsPair_reverse (noWsPair_suffix h (List.dropWhile_suffix _)))
      (List.dropWhile_suffix _))

theorem spacesOnly_trimWS {l : List Char} (h : spacesOnly l) : spacesOnly (trimWS l) :=
  fun c hc hw => h c (mem_trimWS hc) hw

theorem lastNotWs_trimWS (l : List Char) : lastNotWs (trimWS l) := by
  intro c hc
  unfold trimWS at hc
  rw [List.getLast?_reverse] at hc
  exact headNotWs_dropWhile _ c hc

theorem headNotWs_trimWS (l : List Char) : headNotWs (trimWS l) := by
  intro c hc
  unfold trimWS at hc
  rw [List.head?_reverse] at hc
  have hsplit := List.takeWhile_append_dropWhile isJsWS (l.dropWhile isJsWS).reverse
  have hlast : (l.dropWhile isJsWS).reverse.getLast? = some c := by
    rw [← hsplit, List.getLast?_append, hc]
    rfl
  rw [List.getLast?_reverse] at hlast
  exact headNotWs_dropWhile l c hlast

theorem dropWhile_eq_self_of_head {l : List Char} (h : headNotWs l) :
    l.dropWhile isJsWS = l := by
  cases l with
  | nil => rfl
  | cons c t =>
    rw [List.dropWhile_cons, if_neg (by simp [h c rfl])]

theorem trimWS_eq_self {l : List Char} (h1 : headNotWs l) (h2 : lastNotWs l) :
    trimWS l = l := by
  unfold trimWS
  rw [dropWhile_eq_self_of_head h1]
  have hrev : headNotWs l.reverse := by
    intro c hc
    rw [List.head?_reverse] at hc
    exact h2 c hc
  rw [dropWhile_eq_self_of_head hrev, List.reverse_reverse]

/-! ### C10: assembly -/

theorem normalizeL_idem (l : List Char) : normalizeL (normalizeL l) = normalizeL l := by
  have hlow : ∀ c ∈ normalizeL l, Char.toLower c = c := by
    intro c hc
    unfold normalizeL at hc
    have hc2 := mem_trimWS hc
    rcases mem_collapseGo _ _ _ hc2 with hc3 | rfl
    · have hc4 := mem_removeURLsAux _ _ _ hc3
      unfold lowerL at hc4
      rcases List.mem_map.mp hc4 with ⟨d, _, rfl⟩
      exact toLower_toLower d
    · exact toLower_space
  have hclean : cleanURL (normalizeL l) := by
    unfold normalizeL
    exact cleanURL_trimWS (cleanURL_collapseGo _ false (cleanURL_removeURLsAux _ _ le_rfl))
  have hsp : spacesOnly (normalizeL l) := by
    unfold normalizeL
    exact spacesOnly_trimWS (spacesOnly_collapseGo _ false)
  have hnp : noWsPair (normalizeL l) := by
    unfold normalizeL
    exact noWsPair_trimWS (noWsPair_collapseGo _ false)
  have hhead : headNotWs (normalizeL l) := by
    unfold normalizeL
    exact headNotWs_trimWS _
  have hlast : lastNotWs (normalizeL l) := by
    unfold normalizeL
    exact lastNotWs_trimWS _
  show trimWS (collapseWS (removeURLs (lowerL (normalizeL l)))) = normalizeL l
  rw [show lowerL (normalizeL l) = normalizeL l from map_id_of_fix _ hlow,
    show removeURLs (normalizeL l) = normalizeL l from
      removeURLsAux_eq_self _ _ hclean,
    show collapseWS (normalizeL l) = normalizeL l from collapseGo_id _ hsp hnp]
  exact trimWS_eq_self hhead hlast

/-- C10: `normalizeContent` is idempotent: lower-casing, URL-token
removal, whitespace collapsing and trimming a second time change
nothing, because a removed URL token is always followed by whitespace or
the end of the string, so the splice never forms a new scheme-prefixed
non-whitespace run. -/
theorem claim_C10 (s : String) :
    normalizeContent (normalizeContent s) = normalizeContent s :=
  congrArg String.mk (normalizeL_idem s.data)

end DesoAg
